import Mathlib

/-!
Verification of the diagram-generation core of the repository
(`app/services/csv_service.py`) against its specification.

Strings are modelled as `List Char` (Unicode scalar values, which is what
Python 3 strings are sequences of).  The Python regular-expression calls in
`_extract_code_block`, `_extract_actors_from_plantuml` and the helpers are
translated into explicit scanning functions over `List Char`, following the
semantics of `re.search` / `re.findall` (leftmost match, greedy `\s*` / `\w+`
runs, lazy `[\s\S]*?` up to the first closing fence, non-overlapping scan
resuming at each match end).  Character classes (`\s`, `\w`, upper/lower
case folding for `re.IGNORECASE`) are modelled on their ASCII fragment plus
the Unicode whitespace set; the only language hint the program ever passes is
"plantuml", which lies inside this fragment.

External collaborators (pandas CSV loading, the phi Agent, the PlantUML
renderer) are modelled as `Except`-valued parameters: `Except.error msg`
stands for a raised Python exception carrying message `msg`.
-/

/-- The backtick character (code point 96). -/
def btick : Char := Char.ofNat 96

/-- The double-quote character (code point 34). -/
def dq : Char := Char.ofNat 34

/-- Python's whitespace class for `str` patterns (`\s` of the `re` module and
the default strip set of `str.strip()`): ASCII whitespace plus the Unicode
whitespace code points recognised by CPython. -/
def pySpace (c : Char) : Bool :=
  c == ' ' || c == '\t' || c == '\n' || c == '\r' ||
  c.toNat == 0x0b || c.toNat == 0x0c || c.toNat == 0x1c || c.toNat == 0x1d ||
  c.toNat == 0x1e || c.toNat == 0x1f || c.toNat == 0x85 || c.toNat == 0xa0 ||
  c.toNat == 0x1680 || (0x2000 ≤ c.toNat && c.toNat ≤ 0x200a) ||
  c.toNat == 0x2028 || c.toNat == 0x2029 || c.toNat == 0x202f ||
  c.toNat == 0x205f || c.toNat == 0x3000

/-- Python's word class `\w`, restricted to its ASCII fragment
(letters, digits, underscore).  All fence labels the program manipulates
("plantuml", "json", ...) are ASCII words. -/
def pyWordChar (c : Char) : Bool :=
  ('a' ≤ c && c ≤ 'z') || ('A' ≤ c && c ≤ 'Z') || ('0' ≤ c && c ≤ '9') || c == '_'

/-- Upper-case ASCII letter test, used for `re.IGNORECASE` folding. -/
def isUpperAscii (c : Char) : Bool := 65 ≤ c.toNat && c.toNat ≤ 90

/-- Case-insensitive character comparison as performed by `re.IGNORECASE`
on the ASCII fragment: equal characters, or an upper/lower ASCII pair. -/
def ciCharEq (a b : Char) : Bool :=
  a == b || (a.toNat + 32 == b.toNat && isUpperAscii a) ||
    (b.toNat + 32 == a.toNat && isUpperAscii b)

/-- Pointwise case-insensitive equality of two character lists. -/
def ciEqB : List Char → List Char → Bool
  | [], [] => true
  | a :: as, b :: bs => ciCharEq a b && ciEqB as bs
  | _, _ => false

/-- `ciStartsB pat cs`: the pattern `pat` matches case-insensitively at the
very beginning of `cs`. -/
def ciStartsB : List Char → List Char → Bool
  | [], _ => true
  | _ :: _, [] => false
  | p :: ps, c :: cs => ciCharEq p c && ciStartsB ps cs

/-- `hasSub pat cs`: `pat` occurs (case-sensitively) as a contiguous
subsequence of `cs` — Python's `pat in cs`. -/
def hasSub (pat : List Char) : List Char → Bool
  | [] => pat.isPrefixOf []
  | c :: rest => pat.isPrefixOf (c :: rest) || hasSub pat rest

/-- `ciHasSub pat cs`: `pat` occurs case-insensitively inside `cs`. -/
def ciHasSub (pat : List Char) : List Char → Bool
  | [] => ciStartsB pat []
  | c :: rest => ciStartsB pat (c :: rest) || ciHasSub pat rest

/-- Python `str.strip()`: remove leading and trailing whitespace. -/
def pyStrip (cs : List Char) : List Char :=
  ((cs.dropWhile pySpace).reverse.dropWhile pySpace).reverse

/-- The triple-backtick fence delimiter of the Markdown code blocks the
generation capability is instructed to produce. -/
def fence : List Char := "```".data

/-- Find the first occurrence of the closing fence in `cs` (the behaviour of
the lazy group `([\s\S]*?)` followed by a fence): returns the content before
the first fence and the remainder after it, or `none` when no fence occurs. -/
def splitAtFence : List Char → Option (List Char × List Char)
  | [] => none
  | c :: rest =>
    if fence.isPrefixOf (c :: rest) then some ([], (c :: rest).drop 3)
    else
      match splitAtFence rest with
      | some (g, after) => some (c :: g, after)
      | none => none

/-- One anchored attempt of the hinted pattern (Python
`re.search(rf"< fence >{hint}\s*([\s\S]*?)< fence >", text, re.IGNORECASE)`
at a fixed starting position): match the fence and the hint case-insensitively,
consume the greedy whitespace run, then take the lazy group up to the first
closing fence.  Returns the group and the remainder after the match. -/
def tryMatchHinted (h cs : List Char) : Option (List Char × List Char) :=
  if ciStartsB (fence ++ h) cs then
    splitAtFence ((cs.drop (fence ++ h).length).dropWhile pySpace)
  else none

/-- `re.search` of the hinted pattern: try every starting position from the
left, returning the group of the leftmost successful match. -/
def searchHinted (h : List Char) : List Char → Option (List Char)
  | [] => none
  | c :: rest =>
    match tryMatchHinted h (c :: rest) with
    | some (g, _) => some g
    | none => searchHinted h rest

/-- One anchored attempt of the fallback pattern
`re.search(r"< fence >(?:\w+)?\s*([\s\S]*?)< fence >", text)`: match a fence,
consume the greedy optional word run and the greedy whitespace run, then take
the lazy group up to the first closing fence. -/
def tryMatchAny (cs : List Char) : Option (List Char × List Char) :=
  if fence.isPrefixOf cs then
    splitAtFence (((cs.drop 3).dropWhile pyWordChar).dropWhile pySpace)
  else none

/-- `re.search` of the fallback any-fence pattern. -/
def searchAnyFence : List Char → Option (List Char)
  | [] => none
  | c :: rest =>
    match tryMatchAny (c :: rest) with
    | some (g, _) => some g
    | none => searchAnyFence rest

/-- The fallback tail of `_extract_code_block`: any fenced block, else the
trimmed original text. -/
def fallbackExtract (text : List Char) : List Char :=
  match searchAnyFence text with
  | some g => pyStrip g
  | none => pyStrip text

/-- `_extract_code_block(text, lang_hint)` from `app/services/csv_service.py`.
`lang_hint` is interpolated verbatim into the hinted pattern; this embedding
covers hints made of word characters, for which the interpolation is a literal
case-insensitive match (the program only ever passes "plantuml").  Note that
Python's `if lang_hint:` treats an empty hint like `None`. -/
def extract_code_block (text : List Char) (lang_hint : Option (List Char)) : List Char :=
  match lang_hint with
  | some h =>
    if h.isEmpty then fallbackExtract text
    else
      match searchHinted h text with
      | some g => pyStrip g
      | none => fallbackExtract text
  | none => fallbackExtract text

/-- The structural witness that `text` contains a fenced block whose opening
fence carries (case-insensitively) the hint `h`: at some position a fence
followed by a case variant of `h` occurs, with another fence somewhere after.
This is the claim-side, search-free rendering of "contains a fenced block of
the hinted kind". -/
def hintedFencePairB (h : List Char) : List Char → Bool
  | [] => false
  | c :: rest =>
    (ciStartsB (fence ++ h) (c :: rest) &&
      hasSub fence ((c :: rest).drop (3 + h.length))) || hintedFencePairB h rest

/-- The structural witness that `text` contains some fenced block: a fence at
some position with another fence somewhere after it. -/
def hasFencePairB : List Char → Bool
  | [] => false
  | c :: rest =>
    (fence.isPrefixOf (c :: rest) && hasSub fence ((c :: rest).drop 3)) ||
      hasFencePairB rest

/-- The character after the greedy word run is not a word character
(maximality of the run, as realised by a greedy `\w+`). -/
def headNotWord (l : List Char) : Prop :=
  ∀ x, l.head? = some x → pyWordChar x = false

/-- The character after the greedy whitespace run is not whitespace
(maximality of the run, as realised by a greedy `\s*`). -/
def headNotSpace (l : List Char) : Prop :=
  ∀ x, l.head? = some x → pySpace x = false

/-! ### DiagramTextAnalyzer: participants (`_extract_actors_from_plantuml`) -/

/-- Lexicographic comparison of strings by code point — the order Python's
`sorted` uses on `str`. -/
def strLexLe : List Char → List Char → Bool
  | [], _ => true
  | _ :: _, [] => false
  | a :: as, b :: bs =>
    if a.toNat < b.toNat then true
    else if a.toNat == b.toNat then strLexLe as bs
    else false

/-- One anchored attempt of a quoted participant pattern
`re.findall(rf < quote > kw\s+"([^"]+)" < quote >, code, re.IGNORECASE)`:
the keyword case-insensitively, one or more whitespace characters, a double
quote, a non-empty run of non-quote characters (the captured label), and the
closing double quote.  Returns the captured group and the remainder after the
whole match (the greedy `\s+` / `[^"]+` runs are forced: shortening them puts
a whitespace (resp. non-quote) character where the quote is required). -/
def matchQuotedAt (kw cs : List Char) : Option (List Char × List Char) :=
  if ciStartsB kw cs then
    let cs1 := cs.drop kw.length
    let ws := cs1.takeWhile pySpace
    let cs2 := cs1.dropWhile pySpace
    if ws.isEmpty then none
    else
      match cs2 with
      | c :: cs3 =>
        if c == dq then
          let content := cs3.takeWhile (fun x => x != dq)
          let cs4 := cs3.dropWhile (fun x => x != dq)
          match cs4 with
          | _ :: rest => if content.isEmpty then none else some (content, rest)
          | [] => none
        else none
      | [] => none
  else none

/-- One anchored attempt of a bare participant pattern
`kw\s+(\w+)` under `re.IGNORECASE`: the keyword, one or more whitespace
characters, then a maximal non-empty word run (the captured identifier). -/
def matchBareAt (kw cs : List Char) : Option (List Char × List Char) :=
  if ciStartsB kw cs then
    let cs1 := cs.drop kw.length
    let ws := cs1.takeWhile pySpace
    let cs2 := cs1.dropWhile pySpace
    if ws.isEmpty then none
    else
      let name := cs2.takeWhile pyWordChar
      let rest := cs2.dropWhile pyWordChar
      if name.isEmpty then none else some (name, rest)
  else none

/-- Fueled scanner realising `re.findall` for the quoted pattern: try the
pattern at each position from the left; on a match, emit the group and resume
after the match (non-overlapping); otherwise advance one character.  A fuel of
`cs.length` suffices because every step consumes at least one character. -/
def findallQuotedF (kw : List Char) : Nat → List Char → List (List Char)
  | 0, _ => []
  | _ + 1, [] => []
  | n + 1, c :: rest =>
    match matchQuotedAt kw (c :: rest) with
    | some (g, after) => g :: findallQuotedF kw n after
    | none => findallQuotedF kw n rest

/-- `re.findall` of the quoted participant pattern over the whole source. -/
def findallQuoted (kw cs : List Char) : List (List Char) :=
  findallQuotedF kw cs.length cs

/-- Fueled scanner realising `re.findall` for the bare pattern. -/
def findallBareF (kw : List Char) : Nat → List Char → List (List Char)
  | 0, _ => []
  | _ + 1, [] => []
  | n + 1, c :: rest =>
    match matchBareAt kw (c :: rest) with
    | some (g, after) => g :: findallBareF kw n after
    | none => findallBareF kw n rest

/-- `re.findall` of the bare participant pattern over the whole source. -/
def findallBare (kw cs : List Char) : List (List Char) :=
  findallBareF kw cs.length cs

/-- The eight participant-introducing keywords of
`_extract_actors_from_plantuml`, in source order. -/
def participantKeywords : List (List Char) :=
  ["participant".data, "actor".data, "entity".data, "boundary".data,
    "control".data, "database".data, "collections".data, "queue".data]

/-- `_extract_actors_from_plantuml(plantuml_code)`: run the quoted and the
bare pattern of every keyword over the source, collect all captured groups
(`actors.extend(matches)`), then `sorted(set(actors))` — deduplicate and sort
lexicographically. -/
def extract_actors_from_plantuml (plantuml_code : List Char) : List (List Char) :=
  List.insertionSort (fun a b => strLexLe a b = true)
    ((participantKeywords.flatMap
      (fun kw => findallQuoted kw plantuml_code ++ findallBare kw plantuml_code)).dedup)

/-- `code` contains no occurrence (case-insensitive) of any of the eight
participant-introducing keywords. -/
def noKeywordB (code : List Char) : Bool :=
  participantKeywords.all (fun kw => !(ciHasSub kw code))

/-! ### DiagramTextAnalyzer: activities (`_extract_activities_from_plantuml`) -/

/-- The line-boundary characters of Python's `str.splitlines()`. -/
def isLineBreak (c : Char) : Bool :=
  c == '\n' || c == '\r' || c.toNat == 0x0b || c.toNat == 0x0c ||
  c.toNat == 0x1c || c.toNat == 0x1d || c.toNat == 0x1e || c.toNat == 0x85 ||
  c.toNat == 0x2028 || c.toNat == 0x2029

/-- Worker of `splitlines`: accumulate the current line (reversed); a line
break flushes it, `\r\n` counting as one break; a trailing break produces no
extra empty line. -/
def splitlinesGo (acc : List Char) : List Char → List (List Char)
  | [] => [acc.reverse]
  | '\r' :: '\n' :: [] => [acc.reverse]
  | '\r' :: '\n' :: c :: cs => acc.reverse :: splitlinesGo [] (c :: cs)
  | c :: cs =>
    if isLineBreak c then
      match cs with
      | [] => [acc.reverse]
      | d :: cs' => acc.reverse :: splitlinesGo [] (d :: cs')
    else splitlinesGo (c :: acc) cs

/-- Python `str.splitlines()` (empty string yields no lines). -/
def splitlines : List Char → List (List Char)
  | [] => []
  | c :: cs => splitlinesGo [] (c :: cs)

/-- `_extract_activities_from_plantuml(plantuml_code)`: the lines of the
source that contain both an arrow token and a colon, each stripped, in
original order. -/
def extract_activities_from_plantuml (plantuml_code : List Char) : List (List Char) :=
  ((splitlines plantuml_code).filter
    (fun line => hasSub "->".data line && hasSub ":".data line)).map pyStrip

/-! ### The orchestrators (`process_csv_and_generate`, `refine_plantuml_code`)

The external collaborators are passed as `Except`-valued functions:
`agent` is the phi `Agent.run` capability (its text response, or a raised
exception's message), `render` is `render_plantuml_from_text(source,
output_dir, filename_base)` (the written image path, or a raised exception's
message), and `readCsv` is the pandas `read_csv` + `to_csv` normalisation that
`process_csv_and_generate` performs on `csv_path` *before* entering its
`try:` block.  The `finally:` block only unlinks the temporary file and does
not affect the returned value, so it is not modelled.  An orchestrator's
result type `Except (List Char) GenerationResult` distinguishes a returned
result record (`Except.ok`) from an exception escaping to the caller
(`Except.error`). -/

/-- The result record both orchestrators return: the success dictionary
carries the code, the image path, actors and activities and no error key; the
failure dictionary carries only the error message. -/
structure GenerationResult where
  success : Bool
  plantuml_code : Option (List Char)
  plantuml_image : Option (List Char)
  actors : List (List Char)
  activities : List (List Char)
  error : Option (List Char)
deriving DecidableEq

/-- The failure dictionary built in the `except Exception as e:` handlers:
`success=False`, `error=str(e)`, no code, no image, empty actors and
activities. -/
def failureResult (e : List Char) : GenerationResult :=
  { success := false, plantuml_code := none, plantuml_image := none,
    actors := [], activities := [], error := some e }

/-- `Path(p).name`: the component after the last slash (POSIX paths). -/
def pathName (p : List Char) : List Char :=
  (p.reverse.takeWhile (fun c => c != '/')).reverse

/-- The fixed generation prompt `puml_prompt` of `process_csv_and_generate`. -/
def puml_prompt : List Char :=
  ("Analyze the test cases and create a PlantUML sequence diagram that represents the end-to-end flow with all actors and their interactions.\n\nRules:\n1. Identify all participants (users, frontend, backend systems, databases, cron jobs, etc.)\n2. Map the sequence of activities from the test cases\n3. Show interactions between participants with clear messages\n4. Use appropriate PlantUML syntax for sequence diagrams\n5. Output only a single fenced code block using ```plantuml\n\nFirst, examine the CSV data to understand the test cases, then generate the diagram.").data

/-- The refinement prompt built by `refine_plantuml_code` from the existing
source and the user message. -/
def refinePrompt (plantuml_code message : List Char) : List Char :=
  "Here is the current PlantUML code:\n```plantuml\n".data ++ plantuml_code ++
  "\n```\n\nUser request: ".data ++ message ++
  "\n\nPlease return the updated PlantUML code.".data

/-- The body of the `try:` block of `process_csv_and_generate`: run the agent
on the normalised CSV data with the fixed prompt, extract the fenced
plantuml block, render it, analyse it, and assemble the success dictionary
(`host_prefix = "/static"`; the image is referenced as
`f"< host_prefix >/{Path(img).name}"`). -/
def processTryBody
    (agent : List Char → List Char → Except (List Char) (List Char))
    (render : List Char → List Char → List Char → Except (List Char) (List Char))
    (csvData output_dir : List Char) : Except (List Char) GenerationResult :=
  match agent csvData puml_prompt with
  | .error e => .error e
  | .ok raw =>
    let code := extract_code_block raw (some "plantuml".data)
    match render code output_dir "e2e_test_diagram".data with
    | .error e => .error e
    | .ok img =>
      .ok { success := true
            plantuml_code := some code
            plantuml_image := some ("/static/".data ++ pathName img)
            actors := extract_actors_from_plantuml code
            activities := extract_activities_from_plantuml code
            error := none }

/-- `process_csv_and_generate(csv_path, output_dir)`: the CSV normalisation
(`pd.read_csv` and the temporary-file copy) runs before the `try:` block, so
an exception raised there escapes to the caller; every exception raised inside
the `try:` body is converted by the `except` handler into the failure
dictionary carrying the exception's message. -/
def process_csv_and_generate
    (readCsv : List Char → Except (List Char) (List Char))
    (agent : List Char → List Char → Except (List Char) (List Char))
    (render : List Char → List Char → List Char → Except (List Char) (List Char))
    (csv_path output_dir : List Char) : Except (List Char) GenerationResult :=
  match readCsv csv_path with
  | .error e => .error e
  | .ok csvData =>
    match processTryBody agent render csvData output_dir with
    | .ok r => .ok r
    | .error e => .ok (failureResult e)

/-- The body of the `try:` block of `refine_plantuml_code`: run the refiner
agent on the embedded current code plus the user message, extract the fenced
plantuml block from the response, render it, analyse it, and assemble the
success dictionary. -/
def refineTryBody
    (agent : List Char → Except (List Char) (List Char))
    (render : List Char → List Char → List Char → Except (List Char) (List Char))
    (plantuml_code message output_dir : List Char) :
    Except (List Char) GenerationResult :=
  match agent (refinePrompt plantuml_code message) with
  | .error e => .error e
  | .ok content =>
    let updated := extract_code_block content (some "plantuml".data)
    match render updated output_dir "e2e_test_diagram".data with
    | .error e => .error e
    | .ok img =>
      .ok { success := true
            plantuml_code := some updated
            plantuml_image := some ("/static/".data ++ pathName img)
            actors := extract_actors_from_plantuml updated
            activities := extract_activities_from_plantuml updated
            error := none }

/-- `refine_plantuml_code(plantuml_code, message, output_dir)`: the whole
pipeline runs inside the `try:` block, and the `except` handler converts any
exception into the failure dictionary. -/
def refine_plantuml_code
    (agent : List Char → Except (List Char) (List Char))
    (render : List Char → List Char → List Char → Except (List Char) (List Char))
    (plantuml_code message output_dir : List Char) :
    Except (List Char) GenerationResult :=
  match refineTryBody agent render plantuml_code message output_dir with
  | .ok r => .ok r
  | .error e => .ok (failureResult e)

/-! ### The raising behaviour of the extractor call -/

/-- Modelled from the Python `re` library's pattern compilation: calling
`_extract_code_block(text, lang_hint)` first compiles
`rf"< fence >{lang_hint}\s*([\s\S]*?)< fence >"` with the hint interpolated
verbatim.  We model the two regimes the development reasons about: a hint made
only of word characters interpolates to a literal and the call returns
normally; a hint containing an opening parenthesis but no closing parenthesis,
no character class bracket and no backslash leaves an unterminated group in
the pattern, so `re.search` raises `re.error` before any matching.  Hints in
neither regime (for instance ones containing other metacharacters) are left
out of the model (`none`); the program itself only ever passes "plantuml".
`some (Except.ok out)` is a normal return, `some (Except.error msg)` a raised
exception. -/
def extract_code_block_call (text : List Char) (lang_hint : Option (List Char)) :
    Option (Except (List Char) (List Char)) :=
  match lang_hint with
  | none => some (Except.ok (extract_code_block text none))
  | some h =>
    if h.all pyWordChar then some (Except.ok (extract_code_block text (some h)))
    else if h.contains '(' && !h.contains ')' && !h.contains '[' &&
        !h.contains (Char.ofNat 92) then
      some (Except.error "re.error: missing ), unterminated subpattern".data)
    else none

/-! ### Supporting lemmas: case-insensitive matching -/

theorem ciCharEq_refl (c : Char) : ciCharEq c c = true := by
  simp [ciCharEq]

theorem ciCharEq_btick {c : Char} (h : ciCharEq btick c = true) : c = btick := by
  rw [ciCharEq] at h
  rcases Bool.or_eq_true_iff.mp h with h | h
  · rcases Bool.or_eq_true_iff.mp h with h | h
    · exact (eq_of_beq h).symm
    · exact absurd (Bool.and_eq_true_iff.mp h).2 (by decide)
  · obtain ⟨h1, h2⟩ := Bool.and_eq_true_iff.mp h
    exfalso
    have e1 : c.toNat + 32 = btick.toNat := eq_of_beq h1
    have e2 : btick.toNat = 96 := by decide
    simp only [isUpperAscii, Bool.and_eq_true, decide_eq_true_eq] at h2
    omega

theorem ciEqB_length : ∀ {p q : List Char}, ciEqB p q = true → p.length = q.length
  | [], [], _ => rfl
  | _ :: ps, _ :: qs, h => by
    simp only [ciEqB, Bool.and_eq_true] at h
    simpa using ciEqB_length h.2
  | [], _ :: _, h => by simp [ciEqB] at h
  | _ :: _, [], h => by simp [ciEqB] at h

theorem ciEqB_refl : ∀ p : List Char, ciEqB p p = true
  | [] => rfl
  | c :: cs => by simp [ciEqB, ciCharEq_refl, ciEqB_refl cs]

theorem ciEqB_append : ∀ {p₁ q₁ : List Char} {p₂ q₂ : List Char}, ciEqB p₁ q₁ = true →
    ciEqB p₂ q₂ = true → ciEqB (p₁ ++ p₂) (q₁ ++ q₂) = true
  | [], [], _, _, _, h₂ => h₂
  | a :: as, b :: bs, _, _, h₁, h₂ => by
    simp only [ciEqB, Bool.and_eq_true] at h₁
    simpa [ciEqB, h₁.1] using ciEqB_append h₁.2 h₂
  | [], _ :: _, _, _, h₁, _ => by simp [ciEqB] at h₁
  | _ :: _, [], _, _, h₁, _ => by simp [ciEqB] at h₁

theorem ciEqB_append_split : ∀ {p₁ p₂ q : List Char}, ciEqB (p₁ ++ p₂) q = true →
    ∃ q₁ q₂, q = q₁ ++ q₂ ∧ ciEqB p₁ q₁ = true ∧ ciEqB p₂ q₂ = true
  | [], p₂, q, h => ⟨[], q, rfl, rfl, h⟩
  | a :: as, p₂, [], h => by simp [ciEqB] at h
  | a :: as, p₂, b :: bs, h => by
    simp only [List.cons_append, ciEqB, Bool.and_eq_true] at h
    obtain ⟨q₁, q₂, rfl, hq₁, hq₂⟩ := ciEqB_append_split h.2
    exact ⟨b :: q₁, q₂, rfl, by simp [ciEqB, h.1, hq₁], hq₂⟩

theorem fence_eq : fence = [btick, btick, btick] := by decide

theorem ciEqB_fence : ∀ {q : List Char}, ciEqB fence q = true → q = fence := by
  intro q h
  rw [fence_eq] at h ⊢
  match q with
  | [] => simp [ciEqB] at h
  | [_] => simp [ciEqB] at h
  | [_, _] => simp [ciEqB] at h
  | _ :: _ :: _ :: _ :: _ => simp [ciEqB] at h
  | [a, b, c] =>
    simp only [ciEqB, Bool.and_eq_true] at h
    rw [ciCharEq_btick h.1, ciCharEq_btick h.2.1, ciCharEq_btick h.2.2.1]

theorem ciStartsB_of_append : ∀ {p q : List Char} (t : List Char),
    ciEqB p q = true → ciStartsB p (q ++ t) = true
  | [], _, _, _ => rfl
  | a :: as, b :: bs, t, h => by
    simp only [ciEqB, Bool.and_eq_true] at h
    simpa [ciStartsB, h.1] using ciStartsB_of_append t h.2
  | _ :: _, [], _, h => by simp [ciEqB] at h

theorem ciStartsB_decomp : ∀ {p cs : List Char}, ciStartsB p cs = true →
    ∃ q t, cs = q ++ t ∧ ciEqB p q = true
  | [], cs, _ => ⟨[], cs, rfl, rfl⟩
  | p :: ps, c :: cs, h => by
    simp only [ciStartsB, Bool.and_eq_true] at h
    obtain ⟨q, t, rfl, hq⟩ := ciStartsB_decomp h.2
    exact ⟨c :: q, t, rfl, by simp [ciEqB, h.1, hq]⟩
  | _ :: _, [], h => by simp [ciStartsB] at h

/-! ### Supporting lemmas: substring occurrence -/

theorem hasSub_iff {pat cs : List Char} :
    hasSub pat cs = true ↔ ∃ a b, cs = a ++ pat ++ b := by
  constructor
  · intro h
    induction cs with
    | nil =>
      simp only [hasSub] at h
      obtain ⟨t, ht⟩ := List.isPrefixOf_iff_prefix.mp h
      rcases List.append_eq_nil.mp ht with ⟨rfl, rfl⟩
      exact ⟨[], [], rfl⟩
    | cons c rest ih =>
      simp only [hasSub, Bool.or_eq_true] at h
      rcases h with h | h
      · obtain ⟨t, ht⟩ := List.isPrefixOf_iff_prefix.mp h
        exact ⟨[], t, by simp [← ht]⟩
      · obtain ⟨a, b, rfl⟩ := ih h
        exact ⟨c :: a, b, rfl⟩
  · rintro ⟨a, b, rfl⟩
    induction a with
    | nil =>
      match pat, b with
      | [], [] => rfl
      | [], x :: b => simp [hasSub, List.isPrefixOf]
      | p :: ps, b =>
        simp only [List.nil_append, List.cons_append, hasSub, Bool.or_eq_true]
        exact Or.inl (List.isPrefixOf_iff_prefix.mpr ⟨b, by simp⟩)
    | cons x a ih =>
      simp only [List.cons_append, hasSub, Bool.or_eq_true]
      exact Or.inr ih

theorem hasSub_dropWhile {x : Char} {pat cs : List Char} {p : Char → Bool}
    (h : hasSub (x :: pat) cs = true) (hp : p x = false) :
    hasSub (x :: pat) (cs.dropWhile p) = true := by
  induction cs with
  | nil => simp [hasSub, List.isPrefixOf] at h
  | cons c rest ih =>
    rw [List.dropWhile_cons]
    split
    · rename_i hc
      apply ih
      simp only [hasSub, Bool.or_eq_true] at h
      rcases h with h | h
      · exfalso
        obtain ⟨t, ht⟩ := List.isPrefixOf_iff_prefix.mp h
        have hxc : x = c := by
          have := congrArg List.head? ht
          simpa using this
        rw [hxc, hc] at hp
        exact absurd hp (by simp)
      · exact h
    · exact h

/-! ### Supporting lemmas: splitAtFence -/

theorem all_takeWhile (p : Char → Bool) (l : List Char) :
    (l.takeWhile p).all p = true := by
  rw [List.all_eq_true]
  intro x hx
  exact List.mem_takeWhile_imp hx

theorem splitAtFence_sound : ∀ {cs g after : List Char},
    splitAtFence cs = some (g, after) →
    cs = g ++ fence ++ after ∧ hasSub fence g = false
  | [], g, after, h => by simp [splitAtFence] at h
  | c :: rest, g, after, h => by
    rw [splitAtFence] at h
    split at h
    · rename_i hpre
      obtain ⟨t, ht⟩ := List.isPrefixOf_iff_prefix.mp hpre
      injection h with h'
      cases h'
      have hdrop : (c :: rest).drop 3 = t := by
        rw [← ht]
        exact List.drop_left' (by decide)
      refine ⟨?_, by decide⟩
      rw [List.nil_append, hdrop]
      exact ht.symm
    · rename_i hpre
      revert h
      match hsp : splitAtFence rest with
      | none => intro h; exact absurd h (by simp)
      | some (g', after') =>
        intro h
        injection h with h'
        cases h'
        obtain ⟨hrest, hno⟩ := splitAtFence_sound hsp
        refine ⟨by simp [hrest], ?_⟩
        have hpref : fence.isPrefixOf (c :: g') = false := by
          rw [Bool.eq_false_iff]
          intro hcontra
          have hp2 : (c :: g') <+: (c :: rest) := ⟨fence ++ after, by simp [hrest]⟩
          have : fence <+: (c :: rest) := (List.isPrefixOf_iff_prefix.mp hcontra).trans hp2
          exact hpre (List.isPrefixOf_iff_prefix.mpr this)
        simp [hasSub, hpref, hno]

theorem splitAtFence_complete : ∀ {cs : List Char},
    hasSub fence cs = true → (splitAtFence cs).isSome
  | [], h => by simp [hasSub, fence, List.isPrefixOf] at h
  | c :: rest, h => by
    rw [splitAtFence]
    split
    · simp
    · rename_i hpre
      have hpre' : fence.isPrefixOf (c :: rest) = false := Bool.eq_false_iff.mpr hpre
      simp only [hasSub, hpre', Bool.false_or] at h
      have := splitAtFence_complete h
      revert this
      match splitAtFence rest with
      | none => simp
      | some (g, after) => simp

/-! ### Supporting lemmas: the hinted search -/

theorem head_dropWhile_false (p : Char → Bool) (l : List Char) {x : Char}
    (hx : (l.dropWhile p).head? = some x) : p x = false := by
  have := List.head?_dropWhile_not p l
  rw [hx] at this
  exact this

theorem tryMatchHinted_sound {h cs g after : List Char}
    (hm : tryMatchHinted h cs = some (g, after)) :
    ∃ h2 ws, cs = fence ++ h2 ++ ws ++ g ++ fence ++ after ∧ ciEqB h h2 = true ∧
      ws.all pySpace = true ∧ hasSub fence g = false := by
  rw [tryMatchHinted] at hm
  split at hm
  · rename_i hci
    obtain ⟨q, t, hcs, hq⟩ := ciStartsB_decomp hci
    obtain ⟨q₁, q₂, hq12, hq₁, hq₂⟩ := ciEqB_append_split hq
    have hq₁' : q₁ = fence := ciEqB_fence hq₁
    subst hq₁' hq12 hcs
    have hlen : (fence ++ h).length = (fence ++ q₂).length := by
      have := ciEqB_length hq
      simpa using this
    have hdrop : ((fence ++ q₂) ++ t).drop (fence ++ h).length = t := by
      rw [hlen]
      exact List.drop_left _ _
    rw [hdrop] at hm
    obtain ⟨hsplit, hnofence⟩ := splitAtFence_sound hm
    refine ⟨q₂, t.takeWhile pySpace, ?_, hq₂, all_takeWhile _ _, hnofence⟩
    have ht : t = t.takeWhile pySpace ++ (g ++ fence ++ after) := by
      conv_lhs => rw [← List.takeWhile_append_dropWhile pySpace t]
      rw [hsplit]
    conv_lhs => rw [ht]
    simp
  · exact absurd hm (by simp)

theorem searchHinted_sound : ∀ {cs h g : List Char}, searchHinted h cs = some g →
    ∃ pre h2 ws post, cs = pre ++ fence ++ h2 ++ ws ++ g ++ fence ++ post ∧
      ciEqB h h2 = true ∧ ws.all pySpace = true ∧ hasSub fence g = false
  | [], h, g, hs => by simp [searchHinted] at hs
  | c :: rest, h, g, hs => by
    rw [searchHinted] at hs
    revert hs
    cases htm : tryMatchHinted h (c :: rest) with
    | some p =>
      intro hs
      obtain ⟨g', after⟩ := p
      injection hs with hs'
      subst hs'
      obtain ⟨h2, ws, hcs, hci, hws, hnf⟩ := tryMatchHinted_sound htm
      exact ⟨[], h2, ws, after, by simpa using hcs, hci, hws, hnf⟩
    | none =>
      intro hs
      obtain ⟨pre, h2, ws, post, hcs, hci, hws, hnf⟩ := searchHinted_sound hs
      exact ⟨c :: pre, h2, ws, post, by simp [hcs], hci, hws, hnf⟩

theorem fence_ne_nil_cons : fence = btick :: [btick, btick] := by decide

theorem hintedFencePairB_here {h cs : List Char}
    (h1 : ciStartsB (fence ++ h) cs = true)
    (h2 : hasSub fence (cs.drop (3 + h.length)) = true) :
    hintedFencePairB h cs = true := by
  match cs with
  | [] =>
    rw [fence_eq] at h1
    simp [ciStartsB] at h1
  | c :: rest =>
    rw [hintedFencePairB]
    simp [h1, h2]

theorem hintedFencePairB_shift {h cs : List Char} (c : Char)
    (hp : hintedFencePairB h cs = true) : hintedFencePairB h (c :: cs) = true := by
  rw [hintedFencePairB]
  simp [hp]

theorem hintedFencePairB_of_decomp {h h2 : List Char} (mid post : List Char)
    (hci : ciEqB h h2 = true) :
    ∀ pre : List Char,
      hintedFencePairB h (pre ++ fence ++ h2 ++ mid ++ fence ++ post) = true
  | [] => by
    rw [List.nil_append]
    apply hintedFencePairB_here
    · have : ciEqB (fence ++ h) (fence ++ h2) = true := ciEqB_append (ciEqB_refl fence) hci
      have hgrp : fence ++ h2 ++ mid ++ fence ++ post =
          (fence ++ h2) ++ (mid ++ fence ++ post) := by simp
      rw [hgrp]
      exact ciStartsB_of_append _ this
    · have hgrp : fence ++ h2 ++ mid ++ fence ++ post =
          (fence ++ h2) ++ (mid ++ fence ++ post) := by simp
      rw [hgrp]
      have hlen : (fence ++ h2).length = 3 + h.length := by
        simp [fence, ciEqB_length hci]
        omega
      rw [List.drop_left' hlen]
      exact hasSub_iff.mpr ⟨mid, post, rfl⟩
  | c :: pre => by
    have := hintedFencePairB_of_decomp mid post hci pre
    simpa using hintedFencePairB_shift c this

theorem tryMatchHinted_isSome {h cs : List Char}
    (hci : ciStartsB (fence ++ h) cs = true)
    (hsub : hasSub fence (cs.drop (3 + h.length)) = true) :
    (tryMatchHinted h cs).isSome := by
  rw [tryMatchHinted, if_pos hci]
  apply splitAtFence_complete
  have hlen : (fence ++ h).length = 3 + h.length := by
    simp [fence]
    omega
  rw [hlen]
  rw [fence_ne_nil_cons] at hsub ⊢
  exact hasSub_dropWhile hsub (by decide)

theorem searchHinted_isSome : ∀ {h cs : List Char},
    hintedFencePairB h cs = true → (searchHinted h cs).isSome
  | h, [], hp => by simp [hintedFencePairB] at hp
  | h, c :: rest, hp => by
    rw [searchHinted]
    rw [hintedFencePairB] at hp
    rcases Bool.or_eq_true_iff.mp hp with hp | hp
    · obtain ⟨hci, hsub⟩ := Bool.and_eq_true_iff.mp hp
      have := tryMatchHinted_isSome hci hsub
      revert this
      cases tryMatchHinted h (c :: rest) with
      | some p => intro _; simp
      | none => intro hthis; simp at hthis
    · cases htm : tryMatchHinted h (c :: rest) with
      | some p => simp
      | none => exact searchHinted_isSome hp

/-! ### Supporting lemmas: the fallback search -/

theorem tryMatchAny_sound {cs g after : List Char}
    (hm : tryMatchAny cs = some (g, after)) :
    ∃ w s, cs = fence ++ w ++ s ++ g ++ fence ++ after ∧
      w.all pyWordChar = true ∧ s.all pySpace = true ∧ hasSub fence g = false ∧
      headNotWord (s ++ (g ++ fence ++ after)) ∧ headNotSpace (g ++ fence ++ after) := by
  rw [tryMatchAny] at hm
  split at hm
  · rename_i hpre
    obtain ⟨t, ht⟩ := List.isPrefixOf_iff_prefix.mp hpre
    have hdrop : cs.drop 3 = t := by
      rw [← ht]
      exact List.drop_left' (by decide)
    rw [hdrop] at hm
    obtain ⟨hsplit, hnofence⟩ := splitAtFence_sound hm
    refine ⟨t.takeWhile pyWordChar, (t.dropWhile pyWordChar).takeWhile pySpace,
      ?_, all_takeWhile _ _, all_takeWhile _ _, hnofence, ?_, ?_⟩
    · have ht2 : t.dropWhile pyWordChar =
          (t.dropWhile pyWordChar).takeWhile pySpace ++ (g ++ fence ++ after) := by
        conv_lhs => rw [← List.takeWhile_append_dropWhile pySpace (t.dropWhile pyWordChar)]
        rw [hsplit]
      have ht1 : t = t.takeWhile pyWordChar ++
          ((t.dropWhile pyWordChar).takeWhile pySpace ++ (g ++ fence ++ after)) := by
        conv_lhs => rw [← List.takeWhile_append_dropWhile pyWordChar t]
        rw [← ht2]
      rw [← ht]
      conv_lhs => rw [ht1]
      simp
    · intro x hx
      apply head_dropWhile_false pyWordChar t
      have ht2 : t.dropWhile pyWordChar =
          (t.dropWhile pyWordChar).takeWhile pySpace ++ (g ++ fence ++ after) := by
        conv_lhs => rw [← List.takeWhile_append_dropWhile pySpace (t.dropWhile pyWordChar)]
        rw [hsplit]
      rw [ht2]
      exact hx
    · intro x hx
      apply head_dropWhile_false pySpace (t.dropWhile pyWordChar)
      rw [hsplit]
      exact hx
  · exact absurd hm (by simp)

theorem searchAnyFence_sound : ∀ {cs g : List Char}, searchAnyFence cs = some g →
    ∃ pre w s post, cs = pre ++ fence ++ w ++ s ++ g ++ fence ++ post ∧
      hasSub fence pre = false ∧
      w.all pyWordChar = true ∧ s.all pySpace = true ∧ hasSub fence g = false ∧
      headNotWord (s ++ (g ++ fence ++ post)) ∧ headNotSpace (g ++ fence ++ post)
  | [], g, hs => by simp [searchAnyFence] at hs
  | c :: rest, g, hs => by
    rw [searchAnyFence] at hs
    revert hs
    cases htm : tryMatchAny (c :: rest) with
    | some p =>
      intro hs
      obtain ⟨g', after⟩ := p
      injection hs with hs'
      subst hs'
      obtain ⟨w, s, hcs, hw, hsp, hnf, hnw, hns⟩ := tryMatchAny_sound htm
      exact ⟨[], w, s, after, by simpa using hcs, by decide, hw, hsp, hnf, hnw, hns⟩
    | none =>
      intro hs
      obtain ⟨pre, w, s, post, hcs, hprenf, hw, hsp, hnf, hnw, hns⟩ :=
        searchAnyFence_sound hs
      refine ⟨c :: pre, w, s, post, by simp [hcs], ?_, hw, hsp, hnf, hnw, hns⟩
      have hpref : fence.isPrefixOf (c :: pre) = false := by
        rw [Bool.eq_false_iff]
        intro hcontra
        obtain ⟨u, hu⟩ := List.isPrefixOf_iff_prefix.mp hcontra
        have hcs' : c :: rest = fence ++ (u ++ (fence ++ w ++ s ++ g ++ fence ++ post)) := by
          rw [hcs, ← List.append_assoc, hu]
          simp
        have hprecs : fence.isPrefixOf (c :: rest) = true :=
          List.isPrefixOf_iff_prefix.mpr ⟨_, hcs'.symm⟩
        rw [tryMatchAny, if_pos hprecs] at htm
        have hdrop : (c :: rest).drop 3 = u ++ (fence ++ w ++ s ++ g ++ fence ++ post) := by
          rw [hcs']
          exact List.drop_left' (by decide)
        have hsub0 : hasSub fence ((c :: rest).drop 3) = true := by
          rw [hdrop]
          exact hasSub_iff.mpr ⟨u, w ++ s ++ g ++ fence ++ post, by simp⟩
        have hsub2 : hasSub fence
            ((((c :: rest).drop 3).dropWhile pyWordChar).dropWhile pySpace) = true := by
          rw [fence_ne_nil_cons] at hsub0 ⊢
          exact hasSub_dropWhile (hasSub_dropWhile hsub0 (by decide)) (by decide)
        have := splitAtFence_complete hsub2
        rw [htm] at this
        simp at this
      simp [hasSub, hpref, hprenf]

theorem hasFencePairB_here {cs : List Char}
    (h1 : fence.isPrefixOf cs = true)
    (h2 : hasSub fence (cs.drop 3) = true) :
    hasFencePairB cs = true := by
  match cs with
  | [] =>
    rw [fence_eq] at h1
    simp [List.isPrefixOf] at h1
  | c :: rest =>
    rw [hasFencePairB, h1, h2]
    simp

theorem hasFencePairB_shift {cs : List Char} (c : Char)
    (hp : hasFencePairB cs = true) : hasFencePairB (c :: cs) = true := by
  rw [hasFencePairB]
  simp [hp]

theorem hasFencePairB_of_decomp (mid post : List Char) :
    ∀ pre : List Char, hasFencePairB (pre ++ fence ++ mid ++ fence ++ post) = true
  | [] => by
    rw [List.nil_append]
    apply hasFencePairB_here
    · have hgrp : fence ++ mid ++ fence ++ post = fence ++ (mid ++ fence ++ post) := by
        simp
      rw [hgrp]
      exact List.isPrefixOf_iff_prefix.mpr ⟨_, rfl⟩
    · have hgrp : fence ++ mid ++ fence ++ post = fence ++ (mid ++ fence ++ post) := by
        simp
      rw [hgrp, List.drop_left' (by decide)]
      exact hasSub_iff.mpr ⟨mid, post, rfl⟩
  | c :: pre => by
    have := hasFencePairB_of_decomp mid post pre
    simpa using hasFencePairB_shift c this

theorem tryMatchAny_isSome {cs : List Char}
    (hpre : fence.isPrefixOf cs = true)
    (hsub : hasSub fence (cs.drop 3) = true) :
    (tryMatchAny cs).isSome := by
  rw [tryMatchAny, if_pos hpre]
  apply splitAtFence_complete
  rw [fence_ne_nil_cons] at hsub ⊢
  exact hasSub_dropWhile (hasSub_dropWhile hsub (by decide)) (by decide)

theorem searchAnyFence_isSome : ∀ {cs : List Char},
    hasFencePairB cs = true → (searchAnyFence cs).isSome
  | [], hp => by simp [hasFencePairB] at hp
  | c :: rest, hp => by
    rw [searchAnyFence]
    rw [hasFencePairB] at hp
    rcases Bool.or_eq_true_iff.mp hp with hp | hp
    · obtain ⟨h1, h2⟩ := Bool.and_eq_true_iff.mp hp
      have := tryMatchAny_isSome h1 h2
      revert this
      cases tryMatchAny (c :: rest) with
      | some p => intro _; simp
      | none => intro hthis; simp at hthis
    · cases htm : tryMatchAny (c :: rest) with
      | some p => simp
      | none => exact searchAnyFence_isSome hp

/-! ### Concrete sanity checks of the extractor model -/

example : extract_code_block "pre ```plantuml\nA -> B: hi\n``` post".data (some "plantuml".data) =
    "A -> B: hi".data := by decide
example : extract_code_block "x ```PLANTUML  code``` y ```json z```".data (some "plantuml".data) =
    "code".data := by decide
example : extract_code_block "x ```json\nstuff\n``` y".data (some "plantuml".data) =
    "stuff".data := by decide
example : extract_code_block "no fences at all  ".data (some "plantuml".data) =
    "no fences at all".data := by decide
example : extract_code_block "``x``` hello ```y".data none = "hello".data := by decide

/-! ### Glue lemmas for the extractor claims -/

theorem dropWhile_append_all {p : Char → Bool} : ∀ {ws : List Char} (g : List Char),
    ws.all p = true → List.dropWhile p (ws ++ g) = List.dropWhile p g
  | [], g, _ => rfl
  | w :: ws, g, h => by
    simp only [List.all_cons, Bool.and_eq_true] at h
    rw [List.cons_append, List.dropWhile_cons, h.1]
    simp only [if_true]
    exact dropWhile_append_all g h.2

theorem pyStrip_space_prepend {ws g : List Char} (hws : ws.all pySpace = true) :
    pyStrip (ws ++ g) = pyStrip g := by
  rw [pyStrip, pyStrip, dropWhile_append_all g hws]

theorem fence_isPrefixOf_head {w : Char} {l : List Char}
    (h : fence.isPrefixOf (w :: l) = true) : w = btick := by
  obtain ⟨t, ht⟩ := List.isPrefixOf_iff_prefix.mp h
  rw [fence_ne_nil_cons] at ht
  have := congrArg List.head? ht
  simp only [List.cons_append, List.head?_cons] at this
  exact (Option.some.injEq .. ▸ this).symm

theorem hasSub_fence_space_prepend : ∀ {ws : List Char} {g : List Char},
    ws.all pySpace = true → hasSub fence g = false → hasSub fence (ws ++ g) = false
  | [], g, _, hnf => hnf
  | w :: ws, g, hws, hnf => by
    simp only [List.all_cons, Bool.and_eq_true] at hws
    have ih := hasSub_fence_space_prepend hws.2 hnf
    rw [List.cons_append, hasSub]
    have hpref : fence.isPrefixOf (w :: (ws ++ g)) = false := by
      rw [Bool.eq_false_iff]
      intro hcontra
      have hw : w = btick := fence_isPrefixOf_head hcontra
      rw [hw] at hws
      have : pySpace btick = false := by decide
      rw [this] at hws
      exact Bool.false_ne_true hws.1
    rw [hpref, ih]
    rfl

theorem searchHinted_eq_none {h text : List Char}
    (hpair : hintedFencePairB h text = false) : searchHinted h text = none := by
  cases hs : searchHinted h text with
  | none => rfl
  | some g =>
    exfalso
    obtain ⟨pre, h2, ws, post, hcs, hci, _, _⟩ := searchHinted_sound hs
    have htrue := hintedFencePairB_of_decomp (ws ++ g) post hci pre
    have heq : pre ++ fence ++ h2 ++ (ws ++ g) ++ fence ++ post =
        pre ++ fence ++ h2 ++ ws ++ g ++ fence ++ post := by simp
    rw [heq, ← hcs] at htrue
    rw [htrue] at hpair
    simp at hpair

theorem searchAnyFence_eq_none {text : List Char}
    (hpb : hasFencePairB text = false) : searchAnyFence text = none := by
  cases hs : searchAnyFence text with
  | none => rfl
  | some g =>
    exfalso
    obtain ⟨pre, w, s, post, hcs, _, _, _, _, _, _⟩ := searchAnyFence_sound hs
    have htrue := hasFencePairB_of_decomp (w ++ s ++ g) post pre
    have heq : pre ++ fence ++ (w ++ s ++ g) ++ fence ++ post =
        pre ++ fence ++ w ++ s ++ g ++ fence ++ post := by simp
    rw [heq, ← hcs] at htrue
    rw [htrue] at hpb
    simp at hpb

theorem extract_eq_fallback {text : List Char} {hint : Option (List Char)}
    (hintOk : ∀ h, hint = some h → hintedFencePairB h text = false) :
    extract_code_block text hint = fallbackExtract text := by
  cases hint with
  | none => rfl
  | some h =>
    by_cases hemp : h.isEmpty
    · simp [extract_code_block, hemp]
    · have hnone := searchHinted_eq_none (hintOk h rfl)
      simp [extract_code_block, hemp, hnone]

/-! ### Claim C3 -/

/-- **C3.** For every input text that contains a fenced code block whose
opening fence names the hinted kind (matched case-insensitively), the
extractor with that kind hint returns exactly the trimmed inner content of
that block, regardless of any surrounding prose: the text decomposes around a
hinted block (a fence, a case variant `h2` of the hint, the inner content
`inner` free of fences, the closing fence), and the extractor's result is
`pyStrip inner`.  The hint is restricted to non-empty plain words, the
fragment in which the Python pattern interpolation is a literal (the program
only ever hints "plantuml"). -/
theorem claim_c3 (h text : List Char) (hne : h.isEmpty = false)
    (hword : h.all pyWordChar = true) (hpair : hintedFencePairB h text = true) :
    ∃ pre h2 inner post,
      text = pre ++ fence ++ h2 ++ inner ++ fence ++ post ∧
      ciEqB h h2 = true ∧ hasSub fence inner = false ∧
      extract_code_block text (some h) = pyStrip inner := by
  have hsome := searchHinted_isSome hpair
  cases hs : searchHinted h text with
  | none => rw [hs] at hsome; simp at hsome
  | some g =>
    obtain ⟨pre, h2, ws, post, hcs, hci, hws, hnf⟩ := searchHinted_sound hs
    refine ⟨pre, h2, ws ++ g, post, ?_, hci, hasSub_fence_space_prepend hws hnf, ?_⟩
    · rw [hcs]
      simp
    · have hval : extract_code_block text (some h) = pyStrip g := by
        simp [extract_code_block, hne, hs]
      rw [hval, pyStrip_space_prepend hws]

/-- Witness for C3 at a concrete input: a response with prose around a
differently-cased PlantUML block. -/
theorem claim_c3_witness :
    ("plantuml".data.isEmpty = false) ∧
    ("plantuml".data.all pyWordChar = true) ∧
    (hintedFencePairB "plantuml".data
      "Sure!\n```PlantUML\n@startuml\nA -> B: hi\n@enduml\n```\nDone.".data = true) ∧
    (∃ pre h2 inner post,
      "Sure!\n```PlantUML\n@startuml\nA -> B: hi\n@enduml\n```\nDone.".data =
        pre ++ fence ++ h2 ++ inner ++ fence ++ post ∧
      ciEqB "plantuml".data h2 = true ∧ hasSub fence inner = false ∧
      extract_code_block "Sure!\n```PlantUML\n@startuml\nA -> B: hi\n@enduml\n```\nDone.".data
        (some "plantuml".data) = pyStrip inner) :=
  ⟨by decide, by decide, by decide,
    claim_c3 "plantuml".data _ (by decide) (by decide) (by decide)⟩

/-! ### Claim C4 -/

/-- **C4.** With a hint that matches no block of the text (or no hint at
all): if the text contains some fenced block, the extractor returns the
trimmed inner content of the first such block — the text decomposes as a
fence-free prefix `pre`, a fence, the greedy label run `w`, the greedy
whitespace run `s` (both maximal, witnessed by the head conditions), the
fence-free group `g` and the closing fence, and the result is `pyStrip g`;
and if the text contains no fenced block at all, the extractor returns the
trimmed original text unchanged. -/
theorem claim_c4 (text : List Char) (hint : Option (List Char))
    (hintOk : ∀ h, hint = some h →
      h.all pyWordChar = true ∧ hintedFencePairB h text = false) :
    (hasFencePairB text = true →
      ∃ pre w s g post,
        text = pre ++ fence ++ w ++ s ++ g ++ fence ++ post ∧
        hasSub fence pre = false ∧ w.all pyWordChar = true ∧ s.all pySpace = true ∧
        hasSub fence g = false ∧ headNotWord (s ++ (g ++ fence ++ post)) ∧
        headNotSpace (g ++ fence ++ post) ∧
        extract_code_block text hint = pyStrip g) ∧
    (hasFencePairB text = false → extract_code_block text hint = pyStrip text) := by
  have hfb : extract_code_block text hint = fallbackExtract text :=
    extract_eq_fallback (fun h hh => (hintOk h hh).2)
  constructor
  · intro hpb
    have hsome := searchAnyFence_isSome hpb
    cases hs : searchAnyFence text with
    | none => rw [hs] at hsome; simp at hsome
    | some g =>
      obtain ⟨pre, w, s, post, hcs, hpre, hw, hsp, hnf, hnw, hns⟩ :=
        searchAnyFence_sound hs
      refine ⟨pre, w, s, g, post, hcs, hpre, hw, hsp, hnf, hnw, hns, ?_⟩
      rw [hfb]
      simp [fallbackExtract, hs]
  · intro hpb
    rw [hfb]
    have hnone := searchAnyFence_eq_none hpb
    simp [fallbackExtract, hnone]

/-- Witness for C4 at concrete inputs: a text whose only block is a json
block while the hint is "plantuml" (first-block fallback), and a fence-free
text (identity fallback). -/
theorem claim_c4_witness :
    (∃ pre w s g post,
      "see below:\n```json\n[1, 2]\n```\nbye".data =
        pre ++ fence ++ w ++ s ++ g ++ fence ++ post ∧
      hasSub fence pre = false ∧ w.all pyWordChar = true ∧ s.all pySpace = true ∧
      hasSub fence g = false ∧ headNotWord (s ++ (g ++ fence ++ post)) ∧
      headNotSpace (g ++ fence ++ post) ∧
      extract_code_block "see below:\n```json\n[1, 2]\n```\nbye".data
        (some "plantuml".data) = pyStrip g) ∧
    extract_code_block "  no fences here  ".data (some "plantuml".data) =
      pyStrip "  no fences here  ".data := by
  constructor
  · exact (claim_c4 "see below:\n```json\n[1, 2]\n```\nbye".data
      (some "plantuml".data)
      (by intro h hh; cases hh; exact ⟨by decide, by decide⟩)).1 (by decide)
  · exact (claim_c4 "  no fences here  ".data (some "plantuml".data)
      (by intro h hh; cases hh; exact ⟨by decide, by decide⟩)).2 (by decide)

/-! ### Supporting lemmas: the lexicographic order -/

theorem strLexLe_total : ∀ a b : List Char, strLexLe a b = true ∨ strLexLe b a = true
  | [], _ => Or.inl rfl
  | _ :: _, [] => Or.inr rfl
  | x :: xs, y :: ys => by
    rcases Nat.lt_trichotomy x.toNat y.toNat with hlt | heq | hgt
    · left
      simp [strLexLe, hlt]
    · have hnlt : ¬ x.toNat < y.toNat := by omega
      have hnlt' : ¬ y.toNat < x.toNat := by omega
      have hbeq : (x.toNat == y.toNat) = true := by simp [heq]
      have hbeq' : (y.toNat == x.toNat) = true := by simp [heq]
      rcases strLexLe_total xs ys with ih | ih
      · left
        simp [strLexLe, hnlt, hbeq, ih]
      · right
        simp [strLexLe, hnlt', hbeq', ih]
    · right
      simp [strLexLe, hgt]

theorem strLexLe_trans : ∀ (a b c : List Char), strLexLe a b = true →
    strLexLe b c = true → strLexLe a c = true
  | [], _, _, _, _ => rfl
  | _ :: _, [], _, h1, _ => by simp [strLexLe] at h1
  | _ :: _, _ :: _, [], _, h2 => by simp [strLexLe] at h2
  | x :: xs, y :: ys, z :: zs, h1, h2 => by
    simp only [strLexLe] at h1 h2 ⊢
    by_cases hxy : x.toNat < y.toNat
    · by_cases hyz : y.toNat < z.toNat
      · rw [if_pos (by omega)]
      · rw [if_neg hyz] at h2
        by_cases hyz2 : (y.toNat == z.toNat) = true
        · have hyzeq : y.toNat = z.toNat := by simpa using hyz2
          rw [if_pos (by omega)]
        · simp [hyz2] at h2
    · rw [if_neg hxy] at h1
      by_cases hxy2 : (x.toNat == y.toNat) = true
      · rw [if_pos hxy2] at h1
        have hxyeq : x.toNat = y.toNat := by simpa using hxy2
        by_cases hyz : y.toNat < z.toNat
        · rw [if_pos (by omega)]
        · rw [if_neg hyz] at h2
          by_cases hyz2 : (y.toNat == z.toNat) = true
          · rw [if_pos hyz2] at h2
            have hyzeq : y.toNat = z.toNat := by simpa using hyz2
            rw [if_neg (by omega), if_pos (by simp [hxyeq, hyzeq])]
            exact strLexLe_trans xs ys zs h1 h2
          · simp [hyz2] at h2
      · simp [hxy2] at h1

/-! ### Supporting lemmas: the findall scanners -/

theorem findallQuotedF_nil (kw : List Char) : ∀ n, findallQuotedF kw n [] = []
  | 0 => rfl
  | _ + 1 => rfl

theorem findallBareF_nil (kw : List Char) : ∀ n, findallBareF kw n [] = []
  | 0 => rfl
  | _ + 1 => rfl

theorem matchQuotedAt_none {kw cs : List Char} (h : ciStartsB kw cs = false) :
    matchQuotedAt kw cs = none := by
  simp [matchQuotedAt, h]

theorem matchBareAt_none {kw cs : List Char} (h : ciStartsB kw cs = false) :
    matchBareAt kw cs = none := by
  simp [matchBareAt, h]

theorem findallQuotedF_empty {kw : List Char} : ∀ (n : Nat) (cs : List Char),
    ciHasSub kw cs = false → findallQuotedF kw n cs = []
  | 0, _, _ => rfl
  | _ + 1, [], _ => rfl
  | n + 1, c :: rest, h => by
    rw [ciHasSub] at h
    rw [Bool.or_eq_false_iff] at h
    rw [findallQuotedF, matchQuotedAt_none h.1]
    exact findallQuotedF_empty n rest h.2

theorem findallBareF_empty {kw : List Char} : ∀ (n : Nat) (cs : List Char),
    ciHasSub kw cs = false → findallBareF kw n cs = []
  | 0, _, _ => rfl
  | _ + 1, [], _ => rfl
  | n + 1, c :: rest, h => by
    rw [ciHasSub] at h
    rw [Bool.or_eq_false_iff] at h
    rw [findallBareF, matchBareAt_none h.1]
    exact findallBareF_empty n rest h.2

theorem extract_actors_empty_of_no_keyword {code : List Char}
    (h : noKeywordB code = true) : extract_actors_from_plantuml code = [] := by
  rw [noKeywordB, List.all_eq_true] at h
  have hflat : participantKeywords.flatMap
      (fun kw => findallQuoted kw code ++ findallBare kw code) = [] := by
    rw [List.flatMap_eq_nil_iff]
    intro kw hkw
    have hfalse : ciHasSub kw code = false := by
      have := h kw hkw
      simpa using this
    rw [findallQuoted, findallBare, findallQuotedF_empty _ _ hfalse,
      findallBareF_empty _ _ hfalse]
    rfl
  rw [extract_actors_from_plantuml, hflat]
  rfl

theorem takeWhile_dropWhile_all_append (p : Char → Bool) :
    ∀ (xs : List Char) (y : Char) (ys : List Char), xs.all p = true → p y = false →
      (xs ++ y :: ys).takeWhile p = xs ∧ (xs ++ y :: ys).dropWhile p = y :: ys
  | [], y, ys, _, hy => by
    simp [List.takeWhile_cons, List.dropWhile_cons, hy]
  | x :: xs, y, ys, hall, hy => by
    simp only [List.all_cons, Bool.and_eq_true] at hall
    have ih := takeWhile_dropWhile_all_append p xs y ys hall.2 hy
    simp [List.takeWhile_cons, List.dropWhile_cons, hall.1, ih.1, ih.2]

theorem matchQuotedAt_decl {kw kwCased name : List Char}
    (hci : ciEqB kw kwCased = true) (hname : name.isEmpty = false)
    (hq : name.all (fun c => c != dq) = true) :
    matchQuotedAt kw (kwCased ++ ' ' :: dq :: (name ++ [dq])) = some (name, []) := by
  have hstart : ciStartsB kw (kwCased ++ ' ' :: dq :: (name ++ [dq])) = true :=
    ciStartsB_of_append _ hci
  have hlen : kwCased.length = kw.length := (ciEqB_length hci).symm
  have hdrop : (kwCased ++ ' ' :: dq :: (name ++ [dq])).drop kw.length =
      ' ' :: dq :: (name ++ [dq]) := List.drop_left' hlen
  have hsp1 : pySpace ' ' = true := by decide
  have hsp2 : pySpace dq = false := by decide
  have htw : (' ' :: dq :: (name ++ [dq])).takeWhile pySpace = [' '] := by
    simp [List.takeWhile_cons, hsp1, hsp2]
  have hdw : (' ' :: dq :: (name ++ [dq])).dropWhile pySpace = dq :: (name ++ [dq]) := by
    simp [List.dropWhile_cons, hsp1, hsp2]
  have hcontent := takeWhile_dropWhile_all_append (fun c => c != dq)
    name dq ([] : List Char) hq (by simp)
  simp only [matchQuotedAt, hstart, if_true, hdrop, htw, hdw, hcontent.1, hcontent.2]
  simp [hname]

theorem findallQuoted_decl {kw kwCased name : List Char}
    (hci : ciEqB kw kwCased = true) (hname : name.isEmpty = false)
    (hq : name.all (fun c => c != dq) = true) :
    name ∈ findallQuoted kw (kwCased ++ ' ' :: dq :: (name ++ [dq])) := by
  obtain ⟨d, ds, hds⟩ : ∃ d ds, kwCased ++ ' ' :: dq :: (name ++ [dq]) = d :: ds := by
    cases kwCased with
    | nil => exact ⟨_, _, rfl⟩
    | cons a l => exact ⟨_, _, rfl⟩
  rw [findallQuoted, hds, List.length_cons, findallQuotedF, ← hds,
    matchQuotedAt_decl hci hname hq]
  simp [findallQuotedF_nil]

/-! ### Claim C5 -/

/-- **C5.** For every diagram source, `_extract_actors_from_plantuml` returns
a deduplicated (`Nodup`) list sorted in lexicographic code-point order;
keyword matching is case-insensitive across all eight participant-introducing
keyword categories (any case variant `kwCased` of any keyword declares its
quoted label into the result); and the function is deterministic (it is a
pure function of its input, restated as a trivial equation). -/
theorem claim_c5 (code kw kwCased name : List Char)
    (hkw : kw ∈ participantKeywords) (hci : ciEqB kw kwCased = true)
    (hname : name.isEmpty = false) (hq : name.all (fun c => c != dq) = true) :
    List.Sorted (fun a b => strLexLe a b = true) (extract_actors_from_plantuml code) ∧
    (extract_actors_from_plantuml code).Nodup ∧
    extract_actors_from_plantuml code = extract_actors_from_plantuml code ∧
    name ∈ extract_actors_from_plantuml (kwCased ++ ' ' :: dq :: (name ++ [dq])) := by
  refine ⟨?_, ?_, rfl, ?_⟩
  · haveI : IsTotal (List Char) (fun a b => strLexLe a b = true) := ⟨strLexLe_total⟩
    haveI : IsTrans (List Char) (fun a b => strLexLe a b = true) :=
      ⟨fun a b c => strLexLe_trans a b c⟩
    exact List.sorted_insertionSort _ _
  · rw [extract_actors_from_plantuml]
    exact (List.perm_insertionSort _ _).nodup_iff.mpr (List.nodup_dedup _)
  · rw [extract_actors_from_plantuml]
    rw [(List.perm_insertionSort _ _).mem_iff, List.mem_dedup, List.mem_flatMap]
    exact ⟨kw, hkw, List.mem_append_left _ (findallQuoted_decl hci hname hq)⟩

/-- Witness for C5 at a concrete input: sortedness and deduplication on a
small source, and the upper-cased declaration of keyword "participant". -/
theorem claim_c5_witness :
    ("participant".data ∈ participantKeywords) ∧
    (ciEqB "participant".data "PARTICIPANT".data = true) ∧
    ("User".data.isEmpty = false) ∧
    ("User".data.all (fun c => c != dq) = true) ∧
    (List.Sorted (fun a b => strLexLe a b = true)
      (extract_actors_from_plantuml "actor Bob\nparticipant Alice".data) ∧
    (extract_actors_from_plantuml "actor Bob\nparticipant Alice".data).Nodup ∧
    extract_actors_from_plantuml "actor Bob\nparticipant Alice".data =
      extract_actors_from_plantuml "actor Bob\nparticipant Alice".data ∧
    "User".data ∈ extract_actors_from_plantuml
      ("PARTICIPANT".data ++ ' ' :: dq :: ("User".data ++ [dq]))) :=
  ⟨by decide, by decide, by decide, by decide,
    claim_c5 "actor Bob\nparticipant Alice".data "participant".data
      "PARTICIPANT".data "User".data (by decide) (by decide) (by decide) (by decide)⟩

/-! ### Claim C8 -/

/-- **C8.** The empty source yields empty actors and empty activities; every
source containing no recognised participant-introducing keyword
(case-insensitively) yields an empty actor list; and this holds even when the
activity list is non-empty, as on the keyword-free source "A -> B: hi" —
no participants are inferred from activity lines. -/
theorem claim_c8 :
    (extract_actors_from_plantuml [] = [] ∧ extract_activities_from_plantuml [] = []) ∧
    (∀ code : List Char, noKeywordB code = true →
      extract_actors_from_plantuml code = []) ∧
    (noKeywordB "A -> B: hi".data = true ∧
      extract_actors_from_plantuml "A -> B: hi".data = [] ∧
      extract_activities_from_plantuml "A -> B: hi".data = ["A -> B: hi".data]) := by
  refine ⟨⟨rfl, rfl⟩, fun code h => extract_actors_empty_of_no_keyword h, ?_⟩
  refine ⟨by decide, by decide, by decide⟩

/-- Witness for C8's universally quantified part at a concrete keyword-free
source with a non-empty activity list. -/
theorem claim_c8_witness :
    noKeywordB "X ->> Y: msg".data = true ∧
    extract_actors_from_plantuml "X ->> Y: msg".data = [] :=
  ⟨by decide, claim_c8.2.1 "X ->> Y: msg".data (by decide)⟩

/-! ### Claim C6 -/

/-- **C6.** For every diagram source, `_extract_activities_from_plantuml`
returns exactly those lines that contain both a directional arrow token and a
label separator, each trimmed, in the original top-to-bottom line order:
the result is a sublist of the stripped lines (order preservation), every
element comes from a qualifying line, and every qualifying line contributes
its stripped form. -/
theorem claim_c6 (code : List Char) :
    List.Sublist (extract_activities_from_plantuml code)
      ((splitlines code).map pyStrip) ∧
    (∀ a, a ∈ extract_activities_from_plantuml code →
      ∃ line, line ∈ splitlines code ∧ hasSub "->".data line = true ∧
        hasSub ":".data line = true ∧ a = pyStrip line) ∧
    (∀ line, line ∈ splitlines code → hasSub "->".data line = true →
      hasSub ":".data line = true →
      pyStrip line ∈ extract_activities_from_plantuml code) := by
  refine ⟨?_, ?_, ?_⟩
  · rw [extract_activities_from_plantuml]
    exact List.Sublist.map pyStrip (List.filter_sublist (splitlines code))
  · intro a ha
    rw [extract_activities_from_plantuml, List.mem_map] at ha
    obtain ⟨line, hline, rfl⟩ := ha
    rw [List.mem_filter] at hline
    have hb := hline.2
    rw [Bool.and_eq_true_iff] at hb
    exact ⟨line, hline.1, hb.1, hb.2, rfl⟩
  · intro line hline h1 h2
    rw [extract_activities_from_plantuml, List.mem_map]
    refine ⟨line, List.mem_filter.mpr ⟨hline, ?_⟩, rfl⟩
    rw [h1, h2]
    rfl

/-- Witness for C6 at a concrete source. -/
theorem claim_c6_witness :
    List.Sublist
      (extract_activities_from_plantuml "@startuml\nA -> B: go\n@enduml".data)
      ((splitlines "@startuml\nA -> B: go\n@enduml".data).map pyStrip) ∧
    pyStrip "A -> B: go".data ∈
      extract_activities_from_plantuml "@startuml\nA -> B: go\n@enduml".data :=
  ⟨(claim_c6 "@startuml\nA -> B: go\n@enduml".data).1,
    (claim_c6 "@startuml\nA -> B: go\n@enduml".data).2.2 "A -> B: go".data
      (by decide) (by decide) (by decide)⟩

/-! ### Supporting lemmas: the orchestrators -/

theorem processTryBody_ok_shape
    {agent : List Char → List Char → Except (List Char) (List Char)}
    {render : List Char → List Char → List Char → Except (List Char) (List Char)}
    {csvData output_dir : List Char} {r : GenerationResult}
    (h : processTryBody agent render csvData output_dir = Except.ok r) :
    ∃ code img, r =
      { success := true, plantuml_code := some code,
        plantuml_image := some ("/static/".data ++ pathName img),
        actors := extract_actors_from_plantuml code,
        activities := extract_activities_from_plantuml code, error := none } := by
  cases ha : agent csvData puml_prompt with
  | error e =>
    exfalso
    have hval : processTryBody agent render csvData output_dir = Except.error e := by
      unfold processTryBody
      rw [ha]
    rw [hval] at h
    exact absurd h (by simp)
  | ok raw =>
    cases hrd : render (extract_code_block raw (some "plantuml".data)) output_dir
        "e2e_test_diagram".data with
    | error e =>
      exfalso
      have hval : processTryBody agent render csvData output_dir = Except.error e := by
        unfold processTryBody
        rw [ha]
        dsimp only
        rw [hrd]
      rw [hval] at h
      exact absurd h (by simp)
    | ok img =>
      have hval : processTryBody agent render csvData output_dir =
          Except.ok
            { success := true
              plantuml_code := some (extract_code_block raw (some "plantuml".data))
              plantuml_image := some ("/static/".data ++ pathName img)
              actors := extract_actors_from_plantuml
                (extract_code_block raw (some "plantuml".data))
              activities := extract_activities_from_plantuml
                (extract_code_block raw (some "plantuml".data))
              error := none } := by
        unfold processTryBody
        rw [ha]
        dsimp only
        rw [hrd]
      rw [hval] at h
      injection h with h
      exact ⟨extract_code_block raw (some "plantuml".data), img, h.symm⟩

theorem refineTryBody_ok_shape
    {agent : List Char → Except (List Char) (List Char)}
    {render : List Char → List Char → List Char → Except (List Char) (List Char)}
    {plantuml_code message output_dir : List Char} {r : GenerationResult}
    (h : refineTryBody agent render plantuml_code message output_dir = Except.ok r) :
    ∃ code img, r =
      { success := true, plantuml_code := some code,
        plantuml_image := some ("/static/".data ++ pathName img),
        actors := extract_actors_from_plantuml code,
        activities := extract_activities_from_plantuml code, error := none } := by
  cases ha : agent (refinePrompt plantuml_code message) with
  | error e =>
    exfalso
    have hval : refineTryBody agent render plantuml_code message output_dir =
        Except.error e := by
      unfold refineTryBody
      rw [ha]
    rw [hval] at h
    exact absurd h (by simp)
  | ok content =>
    cases hrd : render (extract_code_block content (some "plantuml".data)) output_dir
        "e2e_test_diagram".data with
    | error e =>
      exfalso
      have hval : refineTryBody agent render plantuml_code message output_dir =
          Except.error e := by
        unfold refineTryBody
        rw [ha]
        dsimp only
        rw [hrd]
      rw [hval] at h
      exact absurd h (by simp)
    | ok img =>
      have hval : refineTryBody agent render plantuml_code message output_dir =
          Except.ok
            { success := true
              plantuml_code := some (extract_code_block content (some "plantuml".data))
              plantuml_image := some ("/static/".data ++ pathName img)
              actors := extract_actors_from_plantuml
                (extract_code_block content (some "plantuml".data))
              activities := extract_activities_from_plantuml
                (extract_code_block content (some "plantuml".data))
              error := none } := by
        unfold refineTryBody
        rw [ha]
        dsimp only
        rw [hrd]
      rw [hval] at h
      injection h with h
      exact ⟨extract_code_block content (some "plantuml".data), img, h.symm⟩

theorem process_ok_cases
    {readCsv : List Char → Except (List Char) (List Char)}
    {agent : List Char → List Char → Except (List Char) (List Char)}
    {render : List Char → List Char → List Char → Except (List Char) (List Char)}
    {csv_path output_dir : List Char} {r : GenerationResult}
    (h : process_csv_and_generate readCsv agent render csv_path output_dir =
      Except.ok r) :
    (∃ csvData, readCsv csv_path = Except.ok csvData ∧
      processTryBody agent render csvData output_dir = Except.ok r) ∨
    ∃ e, r = failureResult e := by
  cases hc : readCsv csv_path with
  | error e =>
    exfalso
    have hval : process_csv_and_generate readCsv agent render csv_path output_dir =
        Except.error e := by
      unfold process_csv_and_generate
      rw [hc]
    rw [hval] at h
    exact absurd h (by simp)
  | ok csvData =>
    cases hb : processTryBody agent render csvData output_dir with
    | ok r' =>
      have hval : process_csv_and_generate readCsv agent render csv_path output_dir =
          Except.ok r' := by
        unfold process_csv_and_generate
        rw [hc]
        dsimp only
        rw [hb]
      rw [hval] at h
      injection h with h
      left
      exact ⟨csvData, rfl, by rw [hb, h]⟩
    | error e =>
      have hval : process_csv_and_generate readCsv agent render csv_path output_dir =
          Except.ok (failureResult e) := by
        unfold process_csv_and_generate
        rw [hc]
        dsimp only
        rw [hb]
      rw [hval] at h
      injection h with h
      right
      exact ⟨e, h.symm⟩

theorem refine_ok_cases
    {agent : List Char → Except (List Char) (List Char)}
    {render : List Char → List Char → List Char → Except (List Char) (List Char)}
    {plantuml_code message output_dir : List Char} {r : GenerationResult}
    (h : refine_plantuml_code agent render plantuml_code message output_dir =
      Except.ok r) :
    refineTryBody agent render plantuml_code message output_dir = Except.ok r ∨
    ∃ e, r = failureResult e := by
  cases hb : refineTryBody agent render plantuml_code message output_dir with
  | ok r' =>
    have hval : refine_plantuml_code agent render plantuml_code message output_dir =
        Except.ok r' := by
      unfold refine_plantuml_code
      rw [hb]
    rw [hval] at h
    injection h with h
    left
    rw [h]
  | error e =>
    have hval : refine_plantuml_code agent render plantuml_code message output_dir =
        Except.ok (failureResult e) := by
      unfold refine_plantuml_code
      rw [hb]
    rw [hval] at h
    injection h with h
    right
    exact ⟨e, h.symm⟩

/-! ### Claim C1 -/

/-- **C1 counterexample.** The CSV normalisation (`pd.read_csv` plus the
temporary-file copy) runs *before* the `try:` block of
`process_csv_and_generate`, so an exception raised there escapes to the
caller instead of being converted into a failure result: with a CSV loader
that raises, the orchestrator's outcome is a raised exception
(`Except.error`), not a result record. -/
theorem claim_c1_counterexample :
    process_csv_and_generate
      (fun _ => Except.error "FileNotFoundError: missing.csv".data)
      (fun _ _ => Except.ok [])
      (fun _ _ _ => Except.ok "static/e2e_test_diagram.png".data)
      "missing.csv".data "static".data =
    Except.error "FileNotFoundError: missing.csv".data := rfl

/-- **C1 (amended).** `refine_plantuml_code` never lets an exception escape:
it always returns a result record, and any exception raised inside its
pipeline is converted into the failure record carrying the exception's
message.  `process_csv_and_generate` gives the same guarantee for every
exception raised inside its `try:` pipeline, but only once the CSV
normalisation step (which runs before the `try:` block) has succeeded. -/
theorem claim_c1_amended
    (readCsv : List Char → Except (List Char) (List Char))
    (agent : List Char → List Char → Except (List Char) (List Char))
    (agentR : List Char → Except (List Char) (List Char))
    (render : List Char → List Char → List Char → Except (List Char) (List Char))
    (csv_path output_dir plantuml_code message : List Char) :
    (∀ csvData, readCsv csv_path = Except.ok csvData →
      ∃ r, process_csv_and_generate readCsv agent render csv_path output_dir =
        Except.ok r) ∧
    (∃ r, refine_plantuml_code agentR render plantuml_code message output_dir =
      Except.ok r) ∧
    (∀ csvData e, readCsv csv_path = Except.ok csvData →
      processTryBody agent render csvData output_dir = Except.error e →
      process_csv_and_generate readCsv agent render csv_path output_dir =
        Except.ok (failureResult e)) ∧
    (∀ e, refineTryBody agentR render plantuml_code message output_dir =
        Except.error e →
      refine_plantuml_code agentR render plantuml_code message output_dir =
        Except.ok (failureResult e)) := by
  refine ⟨?_, ?_, ?_, ?_⟩
  · intro csvData hd
    cases hb : processTryBody agent render csvData output_dir with
    | ok r =>
      refine ⟨r, ?_⟩
      unfold process_csv_and_generate
      rw [hd]
      dsimp only
      rw [hb]
    | error e =>
      refine ⟨failureResult e, ?_⟩
      unfold process_csv_and_generate
      rw [hd]
      dsimp only
      rw [hb]
  · cases hb : refineTryBody agentR render plantuml_code message output_dir with
    | ok r =>
      refine ⟨r, ?_⟩
      unfold refine_plantuml_code
      rw [hb]
    | error e =>
      refine ⟨failureResult e, ?_⟩
      unfold refine_plantuml_code
      rw [hb]
  · intro csvData e hd hb
    unfold process_csv_and_generate
    rw [hd]
    dsimp only
    rw [hb]
  · intro e hb
    unfold refine_plantuml_code
    rw [hb]

/-- Witness for C1 (amended) at concrete collaborators: a succeeding pipeline
returns a record, and a raising refinement agent yields the failure record
with its message. -/
theorem claim_c1_witness :
    (∃ r, process_csv_and_generate (fun _ => Except.ok "rows".data)
        (fun _ _ => Except.ok "x".data)
        (fun _ _ _ => Except.ok "static/e2e_test_diagram.png".data)
        "t.csv".data "static".data = Except.ok r) ∧
    refine_plantuml_code (fun _ => Except.error "boom".data)
      (fun _ _ _ => Except.ok "static/e2e_test_diagram.png".data)
      "A -> B: x".data "msg".data "static".data =
      Except.ok (failureResult "boom".data) := by
  constructor
  · exact (claim_c1_amended (fun _ => Except.ok "rows".data)
      (fun _ _ => Except.ok "x".data) (fun _ => Except.error "boom".data)
      (fun _ _ _ => Except.ok "static/e2e_test_diagram.png".data)
      "t.csv".data "static".data "A -> B: x".data "msg".data).1 "rows".data rfl
  · exact (claim_c1_amended (fun _ => Except.ok "rows".data)
      (fun _ _ => Except.ok "x".data) (fun _ => Except.error "boom".data)
      (fun _ _ _ => Except.ok "static/e2e_test_diagram.png".data)
      "t.csv".data "static".data "A -> B: x".data "msg".data).2.2.2
      "boom".data rfl

/-! ### Claim C2 -/

/-- **C2.** Every result record either orchestrator returns satisfies the
invariant: `success=true` iff the code and the image are present and the
error is absent; `success=false` iff the code and the image are absent and
the error is present; and on failure the actors and activities are the empty
list. -/
theorem claim_c2
    (readCsv : List Char → Except (List Char) (List Char))
    (agent : List Char → List Char → Except (List Char) (List Char))
    (agentR : List Char → Except (List Char) (List Char))
    (render : List Char → List Char → List Char → Except (List Char) (List Char))
    (csv_path output_dir plantuml_code message : List Char) (r : GenerationResult)
    (hr : process_csv_and_generate readCsv agent render csv_path output_dir =
        Except.ok r ∨
      refine_plantuml_code agentR render plantuml_code message output_dir =
        Except.ok r) :
    (r.success = true ↔
      (r.plantuml_code.isSome = true ∧ r.plantuml_image.isSome = true ∧
        r.error = none)) ∧
    (r.success = false ↔
      (r.plantuml_code = none ∧ r.plantuml_image = none ∧
        r.error.isSome = true)) ∧
    (r.success = false → r.actors = [] ∧ r.activities = []) := by
  have hshape : (∃ code img, r =
      { success := true, plantuml_code := some code,
        plantuml_image := some ("/static/".data ++ pathName img),
        actors := extract_actors_from_plantuml code,
        activities := extract_activities_from_plantuml code, error := none }) ∨
      ∃ e, r = failureResult e := by
    rcases hr with h | h
    · rcases process_ok_cases h with ⟨csvData, _, hb⟩ | he
      · exact Or.inl (processTryBody_ok_shape hb)
      · exact Or.inr he
    · rcases refine_ok_cases h with hb | he
      · exact Or.inl (refineTryBody_ok_shape hb)
      · exact Or.inr he
  rcases hshape with ⟨code, img, rfl⟩ | ⟨e, rfl⟩
  · exact ⟨by simp, by simp, by simp⟩
  · exact ⟨by simp [failureResult], by simp [failureResult], by simp [failureResult]⟩

/-- Witness for C2 at a concrete returned record: the failure record produced
by a refinement whose agent raises. -/
theorem claim_c2_witness :
    ((failureResult "boom".data).success = true ↔
      ((failureResult "boom".data).plantuml_code.isSome = true ∧
        (failureResult "boom".data).plantuml_image.isSome = true ∧
        (failureResult "boom".data).error = none)) ∧
    ((failureResult "boom".data).success = false ↔
      ((failureResult "boom".data).plantuml_code = none ∧
        (failureResult "boom".data).plantuml_image = none ∧
        (failureResult "boom".data).error.isSome = true)) ∧
    ((failureResult "boom".data).success = false →
      (failureResult "boom".data).actors = [] ∧
      (failureResult "boom".data).activities = []) :=
  claim_c2 (fun _ => Except.ok []) (fun _ _ => Except.ok [])
    (fun _ => Except.error "boom".data) (fun _ _ _ => Except.ok [])
    [] [] [] [] (failureResult "boom".data) (Or.inr rfl)

/-! ### Claim C7 -/

/-- **C7 counterexample.** The claim states the extractor returns normally
for *every* kind-hint string; but the hint is interpolated verbatim into the
search pattern, and the hint "(" leaves an unterminated group there, so the
call raises `re.error` instead of returning. -/
theorem claim_c7_counterexample :
    extract_code_block_call "hello".data (some "(".data) =
      some (Except.error "re.error: missing ), unterminated subpattern".data) := rfl

/-- **C7 (amended).** For every input text and every kind hint that is either
absent or a plain word — the fragment in which the interpolated pattern is a
valid literal, containing in particular the only hint the program ever
passes, "plantuml" — the extractor call returns normally and never raises;
absence of a matching fenced block is handled by the fallback policy, not by
an exception. -/
theorem claim_c7_amended (text : List Char) (hint : Option (List Char))
    (hok : hint = none ∨ ∃ h, hint = some h ∧ h.all pyWordChar = true) :
    ∃ out, extract_code_block_call text hint = some (Except.ok out) := by
  rcases hok with rfl | ⟨h, rfl, hw⟩
  · exact ⟨extract_code_block text none, rfl⟩
  · refine ⟨extract_code_block text (some h), ?_⟩
    simp [extract_code_block_call, hw]

/-- Witness for C7 (amended) at a concrete text and the "plantuml" hint. -/
theorem claim_c7_witness :
    ∃ out, extract_code_block_call "no block here".data (some "plantuml".data) =
      some (Except.ok out) :=
  claim_c7_amended "no block here".data (some "plantuml".data)
    (Or.inr ⟨"plantuml".data, rfl, by decide⟩)

/-! ### Claim C9 -/

/-- **C9 counterexample.** In the refinement scenario of the claim (the
capability returns the fenced block with the two lines "A -> B: ping" and
"B -> A: pong" and rendering succeeds), the returned actors are the empty
list — not `["A", "B"]` as claimed: the analyzer never infers participants
from activity lines, and this source declares none. -/
theorem claim_c9_counterexample :
    Except.map (fun r => r.actors)
      (refine_plantuml_code
        (fun _ => Except.ok "```plantuml\nA -> B: ping\nB -> A: pong\n```".data)
        (fun _ _ _ => Except.ok "static/e2e_test_diagram.png".data)
        "A -> B: ping".data "add a reply".data "static".data) =
      Except.ok ([] : List (List Char)) ∧
    (["A".data, "B".data] : List (List Char)) ≠ [] :=
  ⟨rfl, by decide⟩

/-- **C9 (amended).** In that scenario the result has
`success=true`, the refined code, activities
`["A -> B: ping", "B -> A: pong"]` — and actors `[]`. -/
theorem claim_c9_amended :
    refine_plantuml_code
      (fun _ => Except.ok "```plantuml\nA -> B: ping\nB -> A: pong\n```".data)
      (fun _ _ _ => Except.ok "static/e2e_test_diagram.png".data)
      "A -> B: ping".data "add a reply".data "static".data =
    Except.ok
      { success := true
        plantuml_code := some "A -> B: ping\nB -> A: pong".data
        plantuml_image := some "/static/e2e_test_diagram.png".data
        actors := []
        activities := ["A -> B: ping".data, "B -> A: pong".data]
        error := none } := rfl

/-! ### Claim C10 -/

/-- **C10.** Keyword matching is case-insensitive but deduplication compares
exact strings: the source declaring "participant User" and
"PARTICIPANT user" yields both casings as distinct participants. -/
theorem claim_c10 :
    extract_actors_from_plantuml "participant User\nPARTICIPANT user".data =
      ["User".data, "user".data] ∧
    "User".data ≠ "user".data :=
  ⟨by decide, by decide⟩
